import Mathlib

/-!
Shallow embedding of the cipha repository's cipher transforms
(`src/cipha-lib/src/lib.rs`, the duplicated forms in `src/cipha-lib/src/ciphers.rs`
and `src/cipha/src/ciphers.rs`, and the CLI dispatch in `src/cipha-cli/src/main.rs`).

Strings are modelled as lists of Unicode scalar values (`List Char`), matching
Rust's `str::chars()` iteration.  `u8`/`u32` arithmetic is modelled on `Nat`
with explicit reduction modulo 2^8 where the Rust code can wrap
(release-mode wrapping semantics).  Code that can panic is modelled in
`Option`, `none` standing for a panic (or, for the rail-fence read-out loop,
for exhausting the fuel that bounds its `while` loop).
-/

/-- Wrapping `u8` addition: `(a + b) % 2^8`. -/
def add8 (a b : Nat) : Nat := (a + b) % 256

/-- Wrapping `u8` subtraction: `(a - b) % 2^8` for byte values `a`, `b < 256`. -/
def sub8 (a b : Nat) : Nat := (a + 256 - b % 256) % 256

/-- `'a' <= c && c <= 'z'` (Rust `is_ascii_lowercase` / the `'a'..='z'` match arm). -/
def isLowerB (c : Char) : Bool := 97 ≤ c.toNat && c.toNat ≤ 122

/-- `'A' <= c && c <= 'Z'` (Rust `is_ascii_uppercase` / the `'A'..='Z'` match arm). -/
def isUpperB (c : Char) : Bool := 65 ≤ c.toNat && c.toNat ≤ 90

/-- Rust `char::is_ascii_alphabetic`. -/
def isAsciiAlphaB (c : Char) : Bool := isLowerB c || isUpperB c

/-- Rust `char::is_digit(10)`: an ASCII decimal digit. -/
def isDigit10 (c : Char) : Bool := 48 ≤ c.toNat && c.toNat ≤ 57

/-- Rust `char::is_whitespace`: the Unicode `White_Space` property. -/
def isRustWhitespace (c : Char) : Bool :=
  (9 ≤ c.toNat && c.toNat ≤ 13) || c.toNat == 32 || c.toNat == 133 ||
  c.toNat == 160 || c.toNat == 5760 || (8192 ≤ c.toNat && c.toNat ≤ 8202) ||
  c.toNat == 8232 || c.toNat == 8233 || c.toNat == 8239 || c.toNat == 8287 ||
  c.toNat == 12288

/-- Rust `str::trim`: remove leading and trailing whitespace. -/
def rustTrim (l : List Char) : List Char :=
  ((l.dropWhile isRustWhitespace).reverse.dropWhile isRustWhitespace).reverse

/-- Rust `u8::to_ascii_lowercase` on a byte value. -/
def toLowerByte (b : Nat) : Nat := if 65 ≤ b ∧ b ≤ 90 then b + 32 else b

/-- ASCII lowercasing of a character (`to_ascii_lowercase` at scalar-value level). -/
def toLowerA (c : Char) : Char :=
  if 65 ≤ c.toNat ∧ c.toNat ≤ 90 then Char.ofNat (c.toNat + 32) else c

/-- The per-character substitution of `rot13` (`src/cipha-lib/src/lib.rs:19`). -/
def rot13Char (c : Char) : Char :=
  if isLowerB c then Char.ofNat (add8 (sub8 c.toNat 97) 13 % 26 + 97)
  else if isUpperB c then Char.ofNat (add8 (sub8 c.toNat 65) 13 % 26 + 65)
  else c

/-- `rot13` (`src/cipha-lib/src/lib.rs:19-27`). -/
def rot13 (message : List Char) : List Char := message.map rot13Char

/-- The per-character substitution of `caesar_cipher` (`src/cipha-lib/src/lib.rs:41`);
`shift` is the `u8` shift value. -/
def caesarChar (shift : Nat) (c : Char) : Char :=
  if isLowerB c then Char.ofNat (add8 (sub8 c.toNat 97) shift % 26 + 97)
  else if isUpperB c then Char.ofNat (add8 (sub8 c.toNat 65) shift % 26 + 65)
  else c

/-- `caesar_cipher` (`src/cipha-lib/src/lib.rs:41-49`). -/
def caesar_cipher (message : List Char) (shift : Nat) : List Char :=
  message.map (caesarChar shift)

/-- `reverse_cipher` (`src/cipha-lib/src/lib.rs:64-66`). -/
def reverse_cipher (message : List Char) : List Char := message.reverse

/-- The per-character substitution of `atbash_cipher` (`src/cipha-lib/src/lib.rs:313`). -/
def atbashChar (c : Char) : Char :=
  if isLowerB c then Char.ofNat (sub8 (97 + 25) (sub8 c.toNat 97))
  else if isUpperB c then Char.ofNat (sub8 (65 + 25) (sub8 c.toNat 65))
  else c

/-- `atbash_cipher` (`src/cipha-lib/src/lib.rs:313-319`). -/
def atbash_cipher (plaintext : List Char) : List Char := plaintext.map atbashChar

/-- `atbash_decipher` (`src/cipha-lib/src/lib.rs:331-333`). -/
def atbash_decipher (ciphertext : List Char) : List Char := atbash_cipher ciphertext

/-- The byte sequence of `key.to_ascii_lowercase()` used by the Vigenère functions.
Modelled at scalar-value level; it coincides with Rust's byte indexing for ASCII
keys (the spec's key domain). -/
def vigKeyBytes (key : List Char) : List Nat :=
  key.map (fun c => toLowerByte c.toNat)

/-- The shift value `key.as_bytes()[index % key_len] as u8 - b'a'` used by both
Vigenère loops (`src/cipha-lib/src/lib.rs:184` and `:212`). -/
def vigShift (k : List Nat) (idx : Nat) : Nat :=
  sub8 (k.getD (idx % k.length) 0) 97

/-- The body of the `map` closure in `vigenere_cipher` (`src/cipha-lib/src/lib.rs:177-191`),
with the mutable `index` threaded explicitly. -/
def vigEncLoop (k : List Nat) : Nat → List Char → List Char
  | _, [] => []
  | idx, c :: rest =>
    if isAsciiAlphaB c then
      let first := if isLowerB c then 97 else 65
      Char.ofNat (first + add8 (sub8 c.toNat first) (vigShift k idx) % 26) :: vigEncLoop k (idx + 1) rest
    else c :: vigEncLoop k idx rest

/-- `vigenere_cipher` (`src/cipha-lib/src/lib.rs:167-193`). -/
def vigenere_cipher (plaintext : List Char) (key : List Char) : List Char :=
  let k := vigKeyBytes key
  if k.length = 0 then plaintext else vigEncLoop k 0 plaintext

/-- The body of the `map` closure in `vigenere_decipher` (`src/cipha-lib/src/lib.rs:205-222`). -/
def vigDecLoop (k : List Nat) : Nat → List Char → List Char
  | _, [] => []
  | idx, c :: rest =>
    if isAsciiAlphaB c then
      let first := if isLowerB c then 97 else 65
      Char.ofNat (add8 (sub8 (sub8 c.toNat first) (vigShift k idx)) 26 % 26 + first) :: vigDecLoop k (idx + 1) rest
    else c :: vigDecLoop k idx rest

/-- `vigenere_decipher` (`src/cipha-lib/src/lib.rs:195-224`). -/
def vigenere_decipher (ciphertext : List Char) (key : List Char) : List Char :=
  let k := vigKeyBytes key
  if k.length = 0 then ciphertext else vigDecLoop k 0 ciphertext

/-- The `MORSE_CODE_MAP` table (`src/cipha-lib/src/lib.rs:230-244`), in source
order, including its duplicate entry for the hyphen.  Keys are modelled as
characters since every source symbol is a single character and the encoder
looks up `c.to_string()`. -/
def MORSE_CODE_MAP : List (Char × String) :=
  [('A', ".-"), ('B', "-..."), ('C', "-.-."), ('D', "-.."), ('E', "."), ('F', "..-."),
   ('G', "--."), ('H', "...."), ('I', ".."), ('J', ".---"), ('K', "-.-"), ('L', ".-.."),
   ('M', "--"), ('N', "-."), ('O', "---"), ('P', ".--."), ('Q', "--.-"), ('R', ".-."),
   ('S', "..."), ('T', "-"), ('U', "..-"), ('V', "...-"), ('W', ".--"), ('X', "-..-"),
   ('Y', "-.--"), ('Z', "--.."),
   ('0', "-----"), ('1', ".----"), ('2', "..---"), ('3', "...--"), ('4', "....-"),
   ('5', "....."), ('6', "-...."), ('7', "--..."), ('8', "---.."), ('9', "----."),
   (' ', "/"),
   ('.', ".-.-.-"), (',', "--..--"), ('?', "..--.."), (';', "-.-.-."),
   (':', "---..."), ('-', "-....-"), ('/', "-..-."), (Char.ofNat 39, ".----."),
   (Char.ofNat 34, ".-..-."),
   ('=', "-...-"), ('_', "..--.-"), ('+', ".-.-."), ('-', "-....-"),
   ('*', "-..-"), ('(', "-.--."), (')', "-.--.-")]

/-- Lookup in the `HashMap` built by `create_morse_code_map`
(`src/cipha-lib/src/lib.rs:247-253`): repeated `insert` overwrites, so the
last entry for a key wins. -/
def morseLookup (c : Char) : Option String :=
  (MORSE_CODE_MAP.reverse.find? (fun p => p.1 == c)).map (fun p => p.2)

/-- Lookup in the reversed `HashMap` built by `create_reverse_morse_code_map`
(`src/cipha-lib/src/lib.rs:256-262`): again the last entry for a code wins. -/
def morseRevLookup (s : String) : Option Char :=
  (MORSE_CODE_MAP.reverse.find? (fun p => p.2 == s)).map (fun p => p.1)

/-- ASCII uppercasing of one character.  Rust's `str::to_uppercase` performs the
full Unicode mapping; it agrees with this on ASCII, which covers the whole
Morse symbol table. -/
def toUpperA (c : Char) : Char :=
  if 97 ≤ c.toNat ∧ c.toNat ≤ 122 then Char.ofNat (c.toNat - 32) else c

/-- The body of the encoding loop (`src/cipha-lib/src/lib.rs:279-284`): if the
character has a code, push it followed by one space, otherwise skip it. -/
def morseEncStep (acc : List Char) (c : Char) : List Char :=
  match morseLookup c with
  | some code => acc ++ code.toList ++ [' ']
  | none => acc

/-- `morse_code_cipher` (`src/cipha-lib/src/lib.rs:275-287`): uppercase, look up
each character, push `code ++ " "` for each hit, then `trim`. -/
def morse_code_cipher (text : List Char) : List Char :=
  rustTrim ((text.map toUpperA).foldl morseEncStep [])

/-- Rust `str::split(' ')`: split on every single space, keeping empty tokens
(`"".split(' ')` yields one empty token). -/
def splitOnSpace : List Char → List (List Char)
  | [] => [[]]
  | c :: rest =>
    if c = ' ' then [] :: splitOnSpace rest
    else
      match splitOnSpace rest with
      | [] => [[c]]
      | t :: ts => (c :: t) :: ts

/-- The body of the decoding loop (`src/cipha-lib/src/lib.rs:295-299`): decode
one token, silently skipping unknown ones. -/
def morseDecStep (acc : List Char) (tok : List Char) : List Char :=
  match morseRevLookup (String.mk tok) with
  | some c => acc ++ [c]
  | none => acc

/-- `morse_code_decipher` (`src/cipha-lib/src/lib.rs:290-302`): split on spaces,
reverse-look-up each token, silently skip unknown tokens. -/
def morse_code_decipher (code : List Char) : List Char :=
  (splitOnSpace code).foldl morseDecStep []

/-- The 1-based ordinal `(c as u32 - base + 1)` computed by `alpha2num` for an
alphabetic character (`src/cipha-lib/src/lib.rs:86-87`). -/
def a2nOrd (c : Char) : Nat := c.toNat - (if isUpperB c then 65 else 97) + 1

/-- What one loop iteration of `alpha2num` pushes before the separating space
(`src/cipha-lib/src/lib.rs:85-93`): the decimal rendering of the ordinal for a
letter, the character itself otherwise. -/
def a2nTok (c : Char) : List Char :=
  if isAsciiAlphaB c then Nat.toDigits 10 (a2nOrd c) else [c]

/-- `alpha2num` (`src/cipha-lib/src/lib.rs:81-97`): letters become their 1-based
ordinal rendered in decimal, every other character passes through; each token is
followed by one space and the result is trimmed. -/
def alpha2num (text : List Char) : List Char :=
  rustTrim (text.foldl (fun acc c => acc ++ (a2nTok c ++ [' '])) [])

/-- The numeric value of a digit string (the value `str::parse::<u32>` computes). -/
def digitsVal (l : List Char) : Nat :=
  l.foldl (fun a c => a * 10 + (c.toNat - 48)) 0

/-- Rust `str::parse::<u32>()`: succeeds exactly on non-empty all-digit strings
whose value fits in `u32` (no sign handling is needed at the call sites, which
only ever pass buffers of decimal digits). -/
def parseU32 (l : List Char) : Option Nat :=
  if l ≠ [] ∧ l.all isDigit10 ∧ digitsVal l ≤ 4294967295 then some (digitsVal l) else none

/-- The character-scanning loop of `num2alpha` (`src/cipha-lib/src/lib.rs:117-151`),
with the output and the digit buffer threaded explicitly.  `none` models a panic
of `parse().unwrap()`.  Note that the `continue` in the invalid-number branch
skips `number_buffer.clear()`, so the buffer is kept there. -/
def num2alphaLoop : List Char → List Char → List Char → Option (List Char)
  | [], acc, buf =>
    if buf ≠ [] then
      match parseU32 buf with
      | none => none
      | some n =>
        if n ≤ 26 then some (acc ++ [Char.ofNat (97 + n - 1)])
        else if n ≤ 52 then some (acc ++ [Char.ofNat (65 + n - 27)])
        else some acc
    else some acc
  | c :: rest, acc, buf =>
    if isDigit10 c then num2alphaLoop rest acc (buf ++ [c])
    else if isRustWhitespace c then
      if buf ≠ [] then
        match parseU32 buf with
        | none => none
        | some n =>
          if n ≤ 26 then num2alphaLoop rest (acc ++ [Char.ofNat (97 + n - 1)]) []
          else if n ≤ 52 then num2alphaLoop rest (acc ++ [Char.ofNat (65 + n - 27)]) []
          else num2alphaLoop rest acc buf
      else num2alphaLoop rest acc buf
    else num2alphaLoop rest acc buf

/-- `num2alpha` (`src/cipha-lib/src/lib.rs:113-154`). -/
def num2alpha (cipher_text : List Char) : Option (List Char) :=
  num2alphaLoop cipher_text [] []

/-- `encode_message` (`src/cipha-cli/src/main.rs:143-154`). -/
def encode_message (cipher : String) (message : List Char) (shift : Option Nat)
    (key : Option (List Char)) : List Char :=
  match cipher with
  | "rot13" => rot13 message
  | "caesar" => caesar_cipher message (shift.getD 3)
  | "reverse" => reverse_cipher message
  | "gematria" => alpha2num message
  | "vigenere" => vigenere_cipher message (key.getD [])
  | "morse" => morse_code_cipher message
  | "atbash" => atbash_cipher message
  | _ => "Unsupported cipher".toList

/-- `decode_message` (`src/cipha-cli/src/main.rs:168-179`).  The Caesar branch
applies a forward shift of `shift.unwrap_or(3) * 25`, a `u8` product that wraps
modulo 2^8.  The gematria branch can panic, hence the `Option` result. -/
def decode_message (cipher : String) (message : List Char) (shift : Option Nat)
    (key : Option (List Char)) : Option (List Char) :=
  match cipher with
  | "rot13" => some (rot13 message)
  | "caesar" => some (caesar_cipher message (shift.getD 3 * 25 % 256))
  | "reverse" => some (reverse_cipher message)
  | "gematria" => num2alpha message
  | "vigenere" => some (vigenere_decipher message (key.getD []))
  | "morse" => some (morse_code_decipher message)
  | "atbash" => some (atbash_decipher message)
  | _ => some ("Unsupported cipher".toList)

/-- The direction update shared by all three rail-fence loops
(`src/cipha-lib/src/lib.rs:355-359`, `387-391`, `411-415`): force down at row 0,
force up at row `rails - 1`, keep `dir` otherwise.  The row is carried as an
`Int` because the source computes `(rail as i32 + dir) as usize`; a negative
value models the huge `usize` produced by that cast (which can only make the
next bounds check fail). -/
def railDir (rails : Nat) (dir rail : Int) : Int :=
  if rail = 0 then 1 else if rail = (rails : Int) - 1 then -1 else dir

/-- `fence[rail].push(c)`. -/
def pushRow (fence : List (List Char)) (i : Nat) (c : Char) : List (List Char) :=
  fence.set i (fence.getD i [] ++ [c])

/-- The character-distribution loop of `rail_fence_cipher`
(`src/cipha-lib/src/lib.rs:353-361`).  `none` models the panic of `fence[rail]`
when `rail` is out of bounds. -/
def railEncLoop (rails : Nat) : List Char → List (List Char) → Int → Int → Option (List (List Char))
  | [], fence, _, _ => some fence
  | c :: rest, fence, dir, rail =>
    if 0 ≤ rail ∧ rail < (fence.length : Int) then
      railEncLoop rails rest (pushRow fence rail.toNat c)
        (railDir rails dir rail) (rail + railDir rails dir rail)
    else none

/-- `rail_fence_cipher` (`src/cipha-lib/src/lib.rs:344-364`). -/
def rail_fence_cipher (plaintext : List Char) (rails : Nat) : Option (List Char) :=
  if rails = 1 ∨ rails ≥ plaintext.length then some plaintext
  else (railEncLoop rails plaintext (List.replicate rails []) 1 0).map List.flatten

/-- The position-counting loop of `rail_fence_decipher`
(`src/cipha-lib/src/lib.rs:384-393`); it only depends on the number of input
characters.  `none` models the panic of `positions[rail]` out of bounds. -/
def railCountLoop (rails : Nat) : Nat → List Nat → Int → Int → Option (List Nat)
  | 0, pos, _, _ => some pos
  | n + 1, pos, dir, rail =>
    if 0 ≤ rail ∧ rail < (pos.length : Int) then
      railCountLoop rails n (pos.set rail.toNat (pos.getD rail.toNat 0 + 1))
        (railDir rails dir rail) (rail + railDir rails dir rail)
    else none

/-- The fence-filling loop of `rail_fence_decipher`
(`src/cipha-lib/src/lib.rs:396-401`): row `i` receives the next `positions[i]`
ciphertext characters; `none` models `ciphertext_chars.next().unwrap()`
panicking when the iterator is exhausted.  Leftover characters are dropped,
as in the source. -/
def railFill : List Nat → List Char → Option (List (List Char))
  | [], _ => some []
  | p :: ps, cs =>
    if p ≤ cs.length then (railFill ps (cs.drop p)).map (fun f => cs.take p :: f)
    else none

/-- The read-out `while` loop of `rail_fence_decipher`
(`src/cipha-lib/src/lib.rs:404-417`).  The source loop has no bound of its own
(it spins until `result` reaches `total` characters); `fuel` bounds the
recursion, and `none` models either the `fence[rail]` panic or a loop that
spins without ever finishing. -/
def railReadLoop (rails total : Nat) : Nat → List (List Char) → Int → Int → List Char → Option (List Char)
  | 0, _, _, _, res => if total ≤ res.length then some res else none
  | fuel + 1, fence, dir, rail, res =>
    if total ≤ res.length then some res
    else if 0 ≤ rail ∧ rail < (fence.length : Int) then
      match fence.getD rail.toNat [] with
      | [] => railReadLoop rails total fuel fence
          (railDir rails dir rail) (rail + railDir rails dir rail) res
      | c :: row => railReadLoop rails total fuel (fence.set rail.toNat row)
          (railDir rails dir rail) (rail + railDir rails dir rail) (res ++ [c])
    else none

/-- `rail_fence_decipher` (`src/cipha-lib/src/lib.rs:374-420`). -/
def rail_fence_decipher (ciphertext : List Char) (rails : Nat) : Option (List Char) :=
  if rails = 1 ∨ rails ≥ ciphertext.length then some ciphertext
  else
    (railCountLoop rails ciphertext.length (List.replicate rails 0) 1 0).bind fun pos =>
      (railFill pos ciphertext).bind fun fence =>
        railReadLoop rails ciphertext.length (2 * rails * ciphertext.length + 1) fence 1 0 []

/-! ### Generic helper lemmas -/

theorem toNat_ofNat_small {n : Nat} (h : n < 55296) : (Char.ofNat n).toNat = n := by
  have hv : n.isValidChar := Or.inl h
  rw [Char.ofNat, dif_pos hv]
  rfl

theorem char_eq_of_toNat_eq {c d : Char} (h : c.toNat = d.toNat) : c = d := by
  have h1 := Char.ofNat_toNat c
  rw [h, Char.ofNat_toNat d] at h1
  exact h1.symm

theorem isLowerB_iff {c : Char} : isLowerB c = true ↔ 97 ≤ c.toNat ∧ c.toNat ≤ 122 := by
  simp [isLowerB]

theorem isUpperB_iff {c : Char} : isUpperB c = true ↔ 65 ≤ c.toNat ∧ c.toNat ≤ 90 := by
  simp [isUpperB]

theorem isAsciiAlphaB_false {c : Char} (h : isAsciiAlphaB c = false) :
    isLowerB c = false ∧ isUpperB c = false := by
  simpa [isAsciiAlphaB] using h

/-! ### C9: length preservation and non-letter fixity -/

theorem rot13Char_nonalpha {c : Char} (h : isAsciiAlphaB c = false) : rot13Char c = c := by
  obtain ⟨h1, h2⟩ := isAsciiAlphaB_false h
  simp [rot13Char, h1, h2]

theorem caesarChar_nonalpha {s : Nat} {c : Char} (h : isAsciiAlphaB c = false) :
    caesarChar s c = c := by
  obtain ⟨h1, h2⟩ := isAsciiAlphaB_false h
  simp [caesarChar, h1, h2]

theorem atbashChar_nonalpha {c : Char} (h : isAsciiAlphaB c = false) : atbashChar c = c := by
  obtain ⟨h1, h2⟩ := isAsciiAlphaB_false h
  simp [atbashChar, h1, h2]

theorem vigEncLoop_length (k : List Nat) : ∀ (l : List Char) (idx : Nat),
    (vigEncLoop k idx l).length = l.length := by
  intro l
  induction l with
  | nil => intro idx; rfl
  | cons c rest ih =>
    intro idx
    by_cases h : isAsciiAlphaB c = true
    · simp [vigEncLoop, h, ih]
    · simp [vigEncLoop, h, ih]

theorem vigEncLoop_getElem?_nonalpha (k : List Nat) :
    ∀ (l : List Char) (idx i : Nat) (c : Char), l[i]? = some c → isAsciiAlphaB c = false →
      (vigEncLoop k idx l)[i]? = some c := by
  intro l
  induction l with
  | nil => intro idx i c h _; simp at h
  | cons d rest ih =>
    intro idx i c h hna
    cases i with
    | zero =>
      simp at h
      subst h
      simp [vigEncLoop, hna]
    | succ j =>
      simp at h
      by_cases hd : isAsciiAlphaB d = true
      · simpa [vigEncLoop, hd] using ih (idx + 1) j c h hna
      · simp at hd
        simpa [vigEncLoop, hd] using ih idx j c h hna

/-- Claim C9: every one of `rot13`, `caesar_cipher`, `atbash_cipher`,
`vigenere_cipher` and `reverse_cipher` preserves the number of characters, and
the four substitution transforms leave every non-ASCII-letter character
unchanged at its position. -/
theorem substitution_length_and_nonletter_fixity
    (m : List Char) (s : Nat) (key : List Char) :
    ((rot13 m).length = m.length ∧ (caesar_cipher m s).length = m.length ∧
     (atbash_cipher m).length = m.length ∧ (vigenere_cipher m key).length = m.length ∧
     (reverse_cipher m).length = m.length) ∧
    (∀ (i : Nat) (c : Char), m[i]? = some c → isAsciiAlphaB c = false →
      (rot13 m)[i]? = some c ∧ (caesar_cipher m s)[i]? = some c ∧
      (atbash_cipher m)[i]? = some c ∧ (vigenere_cipher m key)[i]? = some c) := by
  constructor
  · refine ⟨?_, ?_, ?_, ?_, ?_⟩
    · simp [rot13]
    · simp [caesar_cipher]
    · simp [atbash_cipher]
    · by_cases hk : (vigKeyBytes key).length = 0
      · simp [vigenere_cipher, hk]
      · simp [vigenere_cipher, hk, vigEncLoop_length]
    · simp [reverse_cipher]
  · intro i c hi hna
    refine ⟨?_, ?_, ?_, ?_⟩
    · simp [rot13, hi, rot13Char_nonalpha hna]
    · simp [caesar_cipher, hi, caesarChar_nonalpha hna]
    · simp [atbash_cipher, hi, atbashChar_nonalpha hna]
    · by_cases hk : (vigKeyBytes key).length = 0
      · simp [vigenere_cipher, hk, hi]
      · simp only [vigenere_cipher]
        rw [if_neg hk]
        exact vigEncLoop_getElem?_nonalpha _ m 0 i c hi hna

/-- Claim C9 witness: the theorem applied at a concrete message, shift, key and
position holding a non-letter character. -/
theorem substitution_length_and_nonletter_fixity_witness :
    (rot13 "a!b".toList)[1]? = some '!' ∧ (caesar_cipher "a!b".toList 7)[1]? = some '!' ∧
    (atbash_cipher "a!b".toList)[1]? = some '!' ∧
    (vigenere_cipher "a!b".toList "Key".toList)[1]? = some '!' := by
  have h := (substitution_length_and_nonletter_fixity "a!b".toList 7 "Key".toList).2
    1 '!' (by decide) (by decide)
  exact h

/-! ### C10: rail count 0 makes both rail-fence functions panic -/

/-- Claim C10: with 0 rails and a non-empty message, neither `rail_fence_cipher`
nor `rail_fence_decipher` returns a value: the degenerate-case guard only covers
`rails == 1` and `rails >= len`, and row 0 of the empty fence vector is indexed,
which panics (modelled by `none`). -/
theorem rail_fence_zero_rails_panics (m : List Char) (h : m ≠ []) :
    rail_fence_cipher m 0 = none ∧ rail_fence_decipher m 0 = none := by
  match m, h with
  | c :: rest, _ =>
    constructor
    · simp [rail_fence_cipher, railEncLoop]
    · simp [rail_fence_decipher, railCountLoop]

/-- Claim C10 witness: the theorem applied at the one-character message `"a"`. -/
theorem rail_fence_zero_rails_panics_witness :
    rail_fence_cipher "a".toList 0 = none ∧ rail_fence_decipher "a".toList 0 = none :=
  rail_fence_zero_rails_panics "a".toList (by decide)

/-! ### C7: the CLI Caesar decode path -/

theorem encode_caesar_eq (m : List Char) (s : Nat) :
    encode_message "caesar" m (some s) none = caesar_cipher m s := rfl

theorem decode_caesar_eq (m : List Char) (s : Nat) :
    decode_message "caesar" m (some s) none = some (caesar_cipher m (s * 25 % 256)) := rfl

theorem caesar_roundtrip_arith : ∀ s < 10, ∀ i < 26,
    add8 (sub8 (add8 i s % 26 + 97) 97) (s * 25 % 256) % 26 = i ∧
    add8 (sub8 (add8 i s % 26 + 65) 65) (s * 25 % 256) % 26 = i := by decide

theorem caesarChar_cli_roundtrip {s : Nat} (hs : s ≤ 9) (c : Char) :
    caesarChar (s * 25 % 256) (caesarChar s c) = c := by
  by_cases hl : isLowerB c = true
  · have hc := isLowerB_iff.mp hl
    have hy26 : add8 (sub8 c.toNat 97) s % 26 < 26 := Nat.mod_lt _ (by omega)
    have henc : caesarChar s c = Char.ofNat (add8 (sub8 c.toNat 97) s % 26 + 97) := by
      simp [caesarChar, hl]
    have htn : (Char.ofNat (add8 (sub8 c.toNat 97) s % 26 + 97)).toNat =
        add8 (sub8 c.toNat 97) s % 26 + 97 := toNat_ofNat_small (by omega)
    have hl2 : isLowerB (Char.ofNat (add8 (sub8 c.toNat 97) s % 26 + 97)) = true :=
      isLowerB_iff.mpr (by omega)
    rw [henc]
    have hdec : caesarChar (s * 25 % 256) (Char.ofNat (add8 (sub8 c.toNat 97) s % 26 + 97)) =
        Char.ofNat (add8 (sub8 (add8 (sub8 c.toNat 97) s % 26 + 97) 97) (s * 25 % 256) % 26 + 97) := by
      simp [caesarChar, hl2, htn]
    rw [hdec]
    apply char_eq_of_toNat_eq
    have hy26b : add8 (sub8 (add8 (sub8 c.toNat 97) s % 26 + 97) 97) (s * 25 % 256) % 26 < 26 :=
      Nat.mod_lt _ (by omega)
    rw [toNat_ofNat_small (by omega)]
    have hsub : sub8 c.toNat 97 = c.toNat - 97 := by simp only [sub8]; omega
    rw [hsub]
    have harith := (caesar_roundtrip_arith s (by omega) (c.toNat - 97) (by omega)).1
    omega
  · by_cases hu : isUpperB c = true
    · have hc := isUpperB_iff.mp hu
      have hy26 : add8 (sub8 c.toNat 65) s % 26 < 26 := Nat.mod_lt _ (by omega)
      have hlf : isLowerB c = false := by simpa using hl
      have henc : caesarChar s c = Char.ofNat (add8 (sub8 c.toNat 65) s % 26 + 65) := by
        simp [caesarChar, hlf, hu]
      have htn : (Char.ofNat (add8 (sub8 c.toNat 65) s % 26 + 65)).toNat =
          add8 (sub8 c.toNat 65) s % 26 + 65 := toNat_ofNat_small (by omega)
      have hl2 : isLowerB (Char.ofNat (add8 (sub8 c.toNat 65) s % 26 + 65)) = false := by
        rw [Bool.eq_false_iff]
        intro hcon
        have := isLowerB_iff.mp hcon
        omega
      have hu2 : isUpperB (Char.ofNat (add8 (sub8 c.toNat 65) s % 26 + 65)) = true :=
        isUpperB_iff.mpr (by omega)
      rw [henc]
      have hdec : caesarChar (s * 25 % 256) (Char.ofNat (add8 (sub8 c.toNat 65) s % 26 + 65)) =
          Char.ofNat (add8 (sub8 (add8 (sub8 c.toNat 65) s % 26 + 65) 65) (s * 25 % 256) % 26 + 65) := by
        simp [caesarChar, hl2, hu2, htn]
      rw [hdec]
      apply char_eq_of_toNat_eq
      have hy26b : add8 (sub8 (add8 (sub8 c.toNat 65) s % 26 + 65) 65) (s * 25 % 256) % 26 < 26 :=
        Nat.mod_lt _ (by omega)
      rw [toNat_ofNat_small (by omega)]
      have hsub : sub8 c.toNat 65 = c.toNat - 65 := by simp only [sub8]; omega
      rw [hsub]
      have harith := (caesar_roundtrip_arith s (by omega) (c.toNat - 65) (by omega)).2
      omega
    · have hna : isAsciiAlphaB c = false := by
        simp only [isAsciiAlphaB, Bool.or_eq_false_iff]
        exact ⟨by simpa using hl, by simpa using hu⟩
      rw [caesarChar_nonalpha hna, caesarChar_nonalpha hna]

/-- Claim C7 counterexample: at shift 10 the CLI decode path is not the inverse
of the encode path — the `u8` product `10 * 25 = 250` makes the wrapped
arithmetic leave the mod-26 ring, and `"a"` comes back as `"e"`. -/
theorem cli_caesar_decode_fails_at_shift_ten :
    decode_message "caesar" (encode_message "caesar" "a".toList (some 10) none) (some 10) none =
      some "e".toList ∧ some "e".toList ≠ some "a".toList := by decide

/-- Claim C7 (amended): for every message and every shift `s ≤ 9` — exactly the
shifts for which the decode path's wrapped `u8` arithmetic `25 * s` stays below
2^8 throughout — the CLI decode path inverts the encode path; from `s = 10` on,
wrapping modulo 2^8 breaks the inverse (see the counterexample). -/
theorem cli_caesar_decode_inverts_encode (m : List Char) (s : Nat) (hs : s ≤ 9) :
    decode_message "caesar" (encode_message "caesar" m (some s) none) (some s) none = some m := by
  rw [encode_caesar_eq, decode_caesar_eq]
  have hmap : caesar_cipher (caesar_cipher m s) (s * 25 % 256) = m := by
    simp only [caesar_cipher, List.map_map]
    have hid : ∀ c ∈ m, (caesarChar (s * 25 % 256) ∘ caesarChar s) c = id c := fun c _ =>
      caesarChar_cli_roundtrip hs c
    rw [List.map_congr_left hid, List.map_id]
  rw [hmap]

/-- Claim C7 amended witness: the amended theorem applied at a concrete message
and the boundary shift 9. -/
theorem cli_caesar_decode_inverts_encode_witness :
    decode_message "caesar" (encode_message "caesar" "Hello, World!".toList (some 9) none)
      (some 9) none = some "Hello, World!".toList :=
  cli_caesar_decode_inverts_encode "Hello, World!".toList 9 (by decide)

/-! ### C6: Vigenère roundtrip -/

theorem vig_roundtrip_arith : ∀ sh < 26, ∀ i < 26,
    add8 (sub8 (sub8 (97 + add8 i sh % 26) 97) sh) 26 % 26 + 97 = 97 + i ∧
    add8 (sub8 (sub8 (65 + add8 i sh % 26) 65) sh) 26 % 26 + 65 = 65 + i := by decide

theorem vigShift_le (k : List Nat) (hk : k ≠ []) (hkb : ∀ b ∈ k, 97 ≤ b ∧ b ≤ 122)
    (idx : Nat) : vigShift k idx ≤ 25 := by
  have hlt : idx % k.length < k.length := Nat.mod_lt _ (List.length_pos.mpr hk)
  have hbmem : k.getD (idx % k.length) 0 ∈ k := by
    rw [List.getD_eq_getElem k 0 hlt]
    exact List.getElem_mem hlt
  obtain ⟨hb1, hb2⟩ := hkb _ hbmem
  simp only [vigShift, sub8]
  omega

theorem vigLoop_roundtrip (k : List Nat) (hk : k ≠ []) (hkb : ∀ b ∈ k, 97 ≤ b ∧ b ≤ 122) :
    ∀ (m : List Char) (idx : Nat), vigDecLoop k idx (vigEncLoop k idx m) = m := by
  intro m
  induction m with
  | nil => intro idx; rfl
  | cons c rest ih =>
    intro idx
    have hsh25 : vigShift k idx ≤ 25 := vigShift_le k hk hkb idx
    by_cases ha : isAsciiAlphaB c = true
    · by_cases hl : isLowerB c = true
      · have hc := isLowerB_iff.mp hl
        have hx26 : add8 (sub8 c.toNat 97) (vigShift k idx) % 26 < 26 :=
          Nat.mod_lt _ (by omega)
        have henc : vigEncLoop k idx (c :: rest) =
            Char.ofNat (97 + add8 (sub8 c.toNat 97) (vigShift k idx) % 26) ::
              vigEncLoop k (idx + 1) rest := by
          simp [vigEncLoop, ha, hl]
        have htn : (Char.ofNat (97 + add8 (sub8 c.toNat 97) (vigShift k idx) % 26)).toNat =
            97 + add8 (sub8 c.toNat 97) (vigShift k idx) % 26 :=
          toNat_ofNat_small (by omega)
        have hel : isLowerB (Char.ofNat (97 + add8 (sub8 c.toNat 97) (vigShift k idx) % 26)) = true :=
          isLowerB_iff.mpr (by omega)
        have hea : isAsciiAlphaB (Char.ofNat (97 + add8 (sub8 c.toNat 97) (vigShift k idx) % 26)) = true := by
          simp [isAsciiAlphaB, hel]
        rw [henc]
        have hdec : vigDecLoop k idx
            (Char.ofNat (97 + add8 (sub8 c.toNat 97) (vigShift k idx) % 26) ::
              vigEncLoop k (idx + 1) rest) =
            Char.ofNat (add8 (sub8 (sub8 (97 + add8 (sub8 c.toNat 97) (vigShift k idx) % 26) 97)
                (vigShift k idx)) 26 % 26 + 97) ::
              vigDecLoop k (idx + 1) (vigEncLoop k (idx + 1) rest) := by
          simp [vigDecLoop, hea, hel, htn]
        rw [hdec, ih (idx + 1)]
        have hhead : Char.ofNat (add8 (sub8 (sub8 (97 + add8 (sub8 c.toNat 97) (vigShift k idx) % 26) 97)
            (vigShift k idx)) 26 % 26 + 97) = c := by
          apply char_eq_of_toNat_eq
          have hlt26 : add8 (sub8 (sub8 (97 + add8 (sub8 c.toNat 97) (vigShift k idx) % 26) 97)
              (vigShift k idx)) 26 % 26 < 26 := Nat.mod_lt _ (by omega)
          rw [toNat_ofNat_small (by omega)]
          have hsubc : sub8 c.toNat 97 = c.toNat - 97 := by simp only [sub8]; omega
          rw [hsubc]
          have harith := (vig_roundtrip_arith (vigShift k idx) (by omega)
            (c.toNat - 97) (by omega)).1
          omega
        rw [hhead]
      · have hu : isUpperB c = true := by
          rcases Bool.or_eq_true_iff.mp (by simpa [isAsciiAlphaB] using ha) with h | h
          · exact absurd h hl
          · exact h
        have hc := isUpperB_iff.mp hu
        have hlf : isLowerB c = false := by simpa using hl
        have hx26 : add8 (sub8 c.toNat 65) (vigShift k idx) % 26 < 26 :=
          Nat.mod_lt _ (by omega)
        have henc : vigEncLoop k idx (c :: rest) =
            Char.ofNat (65 + add8 (sub8 c.toNat 65) (vigShift k idx) % 26) ::
              vigEncLoop k (idx + 1) rest := by
          simp [vigEncLoop, ha, hlf]
        have htn : (Char.ofNat (65 + add8 (sub8 c.toNat 65) (vigShift k idx) % 26)).toNat =
            65 + add8 (sub8 c.toNat 65) (vigShift k idx) % 26 :=
          toNat_ofNat_small (by omega)
        have helf : isLowerB (Char.ofNat (65 + add8 (sub8 c.toNat 65) (vigShift k idx) % 26)) = false := by
          rw [Bool.eq_false_iff]
          intro hcon
          have := isLowerB_iff.mp hcon
          omega
        have heu : isUpperB (Char.ofNat (65 + add8 (sub8 c.toNat 65) (vigShift k idx) % 26)) = true :=
          isUpperB_iff.mpr (by omega)
        have hea : isAsciiAlphaB (Char.ofNat (65 + add8 (sub8 c.toNat 65) (vigShift k idx) % 26)) = true := by
          simp [isAsciiAlphaB, heu]
        rw [henc]
        have hdec : vigDecLoop k idx
            (Char.ofNat (65 + add8 (sub8 c.toNat 65) (vigShift k idx) % 26) ::
              vigEncLoop k (idx + 1) rest) =
            Char.ofNat (add8 (sub8 (sub8 (65 + add8 (sub8 c.toNat 65) (vigShift k idx) % 26) 65)
                (vigShift k idx)) 26 % 26 + 65) ::
              vigDecLoop k (idx + 1) (vigEncLoop k (idx + 1) rest) := by
          simp [vigDecLoop, hea, helf, htn]
        rw [hdec, ih (idx + 1)]
        have hhead : Char.ofNat (add8 (sub8 (sub8 (65 + add8 (sub8 c.toNat 65) (vigShift k idx) % 26) 65)
            (vigShift k idx)) 26 % 26 + 65) = c := by
          apply char_eq_of_toNat_eq
          have hlt26 : add8 (sub8 (sub8 (65 + add8 (sub8 c.toNat 65) (vigShift k idx) % 26) 65)
              (vigShift k idx)) 26 % 26 < 26 := Nat.mod_lt _ (by omega)
          rw [toNat_ofNat_small (by omega)]
          have hsubc : sub8 c.toNat 65 = c.toNat - 65 := by simp only [sub8]; omega
          rw [hsubc]
          have harith := (vig_roundtrip_arith (vigShift k idx) (by omega)
            (c.toNat - 65) (by omega)).2
          omega
        rw [hhead]
    · have hna : isAsciiAlphaB c = false := by simpa using ha
      have henc : vigEncLoop k idx (c :: rest) = c :: vigEncLoop k idx rest := by
        simp [vigEncLoop, hna]
      rw [henc]
      have hdec : vigDecLoop k idx (c :: vigEncLoop k idx rest) =
          c :: vigDecLoop k idx (vigEncLoop k idx rest) := by
        simp [vigDecLoop, hna]
      rw [hdec, ih idx]

/-- Claim C6: for every plaintext and every key of ASCII alphabetic characters
(either case), `vigenere_decipher` inverts `vigenere_cipher`; and for the empty
key both functions are the identity (early return, not an error). -/
theorem vigenere_roundtrip_and_empty_key_identity (m key : List Char) :
    ((∀ c ∈ key, isAsciiAlphaB c = true) →
      vigenere_decipher (vigenere_cipher m key) key = m) ∧
    (vigenere_cipher m [] = m ∧ vigenere_decipher m [] = m) := by
  constructor
  · intro hkey
    by_cases hk0 : (vigKeyBytes key).length = 0
    · simp [vigenere_cipher, vigenere_decipher, hk0]
    · have hkne : vigKeyBytes key ≠ [] := by
        intro hcon
        rw [hcon] at hk0
        exact hk0 rfl
      have hkb : ∀ b ∈ vigKeyBytes key, 97 ≤ b ∧ b ≤ 122 := by
        intro b hb
        simp only [vigKeyBytes, List.mem_map] at hb
        obtain ⟨c, hc, hbc⟩ := hb
        have halpha := hkey c hc
        have hranges : (97 ≤ c.toNat ∧ c.toNat ≤ 122) ∨ (65 ≤ c.toNat ∧ c.toNat ≤ 90) := by
          rcases Bool.or_eq_true_iff.mp (by simpa [isAsciiAlphaB] using halpha) with h | h
          · exact Or.inl (isLowerB_iff.mp h)
          · exact Or.inr (isUpperB_iff.mp h)
        subst hbc
        simp only [toLowerByte]
        split <;> omega
      simp only [vigenere_cipher, vigenere_decipher]
      rw [if_neg hk0, if_neg hk0]
      exact vigLoop_roundtrip _ hkne hkb m 0
  · exact ⟨rfl, rfl⟩

/-- Claim C6 witness: the roundtrip applied at a concrete mixed-case message and
mixed-case key, and the hypothesis discharged there. -/
theorem vigenere_roundtrip_witness :
    vigenere_decipher (vigenere_cipher "Attack at Dawn!".toList "LeMoN".toList)
      "LeMoN".toList = "Attack at Dawn!".toList :=
  (vigenere_roundtrip_and_empty_key_identity "Attack at Dawn!".toList "LeMoN".toList).1
    (by decide)

/-! ### C8: the Morse symbol table -/

/-- Claim C8 counterexample: the table defines 52 distinct source symbols, not
44, and the symbol-to-code mapping is not injective: the distinct symbols `X`
and `*` share the code string `-..-`. -/
theorem morse_table_not_44_not_injective :
    (MORSE_CODE_MAP.map Prod.fst).dedup.length = 52 ∧ (52 : Nat) ≠ 44 ∧
    morseLookup 'X' = some "-..-" ∧ morseLookup '*' = some "-..-" ∧ 'X' ≠ '*' := by decide

/-- Claim C8 (amended): the fixed Morse table has 53 entries over exactly 52
distinct source symbols (`-` is listed twice with the same code), and the
symbol-to-code mapping is injective except for the single collision between
`X` and `*`, which share the code `-..-`. -/
theorem morse_table_symbols_and_injectivity :
    MORSE_CODE_MAP.length = 53 ∧ (MORSE_CODE_MAP.map Prod.fst).dedup.length = 52 ∧
    (∀ a ∈ MORSE_CODE_MAP.map Prod.fst, ∀ b ∈ MORSE_CODE_MAP.map Prod.fst,
      morseLookup a = morseLookup b →
        a = b ∨ (a = 'X' ∧ b = '*') ∨ (a = '*' ∧ b = 'X')) := by decide

/-- Claim C8 amended witness: the injectivity clause applied at the concrete
colliding pair `X`, `*`. -/
theorem morse_table_symbols_and_injectivity_witness :
    'X' = '*' ∨ ('X' = 'X' ∧ '*' = '*') ∨ ('X' = '*' ∧ '*' = 'X') :=
  morse_table_symbols_and_injectivity.2.2 'X' (by decide) '*' (by decide) (by decide)

/-! ### C1: Morse roundtrip -/

/-- The (forward) code of a character, as a character list. -/
def codeOfL (c : Char) : List Char := ((morseLookup c).getD "").toList

/-- A character for which the Morse roundtrip argument goes through: it has a
code, uppercasing fixes it, the code is non-empty, contains no (white)space,
and reverse-looking it up returns the character itself. -/
def morseGood (c : Char) : Bool :=
  (morseLookup c).isSome && (toUpperA c == c) && (!(codeOfL c).isEmpty) &&
  (codeOfL c).all (fun d => !isRustWhitespace d && !(d == ' ')) &&
  (morseRevLookup (String.mk (codeOfL c)) == some c)

theorem morseGood_of_mem : ∀ c ∈ MORSE_CODE_MAP.map Prod.fst, c ≠ 'X' → morseGood c = true := by
  decide

theorem morseGood_parts {c : Char} (h : morseGood c = true) :
    (morseLookup c).isSome = true ∧ toUpperA c = c ∧ codeOfL c ≠ [] ∧
    (∀ d ∈ codeOfL c, isRustWhitespace d = false ∧ d ≠ ' ') ∧
    morseRevLookup (String.mk (codeOfL c)) = some c := by
  unfold morseGood at h
  rw [Bool.and_eq_true, Bool.and_eq_true, Bool.and_eq_true, Bool.and_eq_true] at h
  obtain ⟨⟨⟨⟨hsome, hup⟩, hne⟩, hall⟩, hrev⟩ := h
  refine ⟨hsome, eq_of_beq hup, ?_, ?_, eq_of_beq hrev⟩
  · intro hcon
    rw [hcon] at hne
    simp at hne
  · intro d hd
    rw [List.all_eq_true] at hall
    have hx := hall d hd
    rw [Bool.and_eq_true] at hx
    refine ⟨by simpa using hx.1, ?_⟩
    intro hcon
    subst hcon
    simp at hx

/-- Concatenation of code tokens with single separating spaces (the shape of the
trimmed encoder output). -/
def joinSp : List (List Char) → List Char
  | [] => []
  | [cd] => cd
  | cd :: rest => cd ++ ' ' :: joinSp rest

theorem morseEncStep_append (acc : List Char) (c : Char) :
    morseEncStep acc c = acc ++ morseEncStep [] c := by
  unfold morseEncStep
  cases morseLookup c <;> simp

theorem foldl_morseEncStep_append : ∀ (l : List Char) (acc : List Char),
    l.foldl morseEncStep acc = acc ++ l.foldl morseEncStep [] := by
  intro l
  induction l with
  | nil => intro acc; simp
  | cons c rest ih =>
    intro acc
    simp only [List.foldl_cons]
    rw [ih (morseEncStep acc c), ih (morseEncStep [] c), morseEncStep_append acc c]
    simp

theorem morseEncStep_isSome {c : Char} (h : (morseLookup c).isSome = true) (acc : List Char) :
    morseEncStep acc c = acc ++ codeOfL c ++ [' '] := by
  obtain ⟨cd, hcd⟩ := Option.isSome_iff_exists.mp h
  simp [morseEncStep, codeOfL, hcd]

theorem foldl_enc_eq : ∀ (m : List Char), m ≠ [] →
    (∀ c ∈ m, (morseLookup c).isSome = true) →
    m.foldl morseEncStep [] = joinSp (m.map codeOfL) ++ [' '] := by
  intro m
  induction m with
  | nil => intro h; exact absurd rfl h
  | cons c rest ih =>
    intro _ hall
    have hc : (morseLookup c).isSome = true := hall c (by simp)
    cases rest with
    | nil =>
      simp only [List.foldl_cons, List.foldl_nil, List.map_cons, List.map_nil]
      rw [morseEncStep_isSome hc]
      simp [joinSp]
    | cons c2 rest2 =>
      have hall2 : ∀ x ∈ c2 :: rest2, (morseLookup x).isSome = true := fun x hx =>
        hall x (by simp [hx])
      rw [List.foldl_cons, foldl_morseEncStep_append (c2 :: rest2) (morseEncStep [] c),
        ih (by simp) hall2, morseEncStep_isSome hc]
      simp [joinSp]

theorem dropWhile_head_false {p : Char → Bool} : ∀ {l : List Char} {h : Char},
    l.head? = some h → p h = false → l.dropWhile p = l := by
  intro l h hl hp
  cases l with
  | nil => simp at hl
  | cons a l2 =>
    simp at hl
    subst hl
    simp [List.dropWhile_cons, hp]

theorem rustTrim_append_space {X : List Char} {h t : Char}
    (hd : X.head? = some h) (hph : isRustWhitespace h = false)
    (ht : X.getLast? = some t) (hpt : isRustWhitespace t = false) :
    rustTrim (X ++ [' ']) = X := by
  unfold rustTrim
  have h1 : (X ++ [' ']).dropWhile isRustWhitespace = X ++ [' '] := by
    apply dropWhile_head_false _ hph
    rw [List.head?_append, hd]
    rfl
  rw [h1]
  have h2 : (X ++ [' ']).reverse = ' ' :: X.reverse := by simp
  rw [h2]
  have h3 : (' ' :: X.reverse).dropWhile isRustWhitespace =
      X.reverse.dropWhile isRustWhitespace := by
    rw [List.dropWhile_cons_of_pos (by decide)]
  rw [h3]
  have h4 : X.reverse.dropWhile isRustWhitespace = X.reverse := by
    apply dropWhile_head_false _ hpt
    rw [List.head?_reverse, ht]
  rw [h4, List.reverse_reverse]

theorem joinSp_head_last : ∀ (codes : List (List Char)), codes ≠ [] →
    (∀ cd ∈ codes, cd ≠ [] ∧ ∀ d ∈ cd, isRustWhitespace d = false) →
    ∃ h t, (joinSp codes).head? = some h ∧ isRustWhitespace h = false ∧
      (joinSp codes).getLast? = some t ∧ isRustWhitespace t = false := by
  intro codes
  induction codes with
  | nil => intro h; exact absurd rfl h
  | cons cd rest ih =>
    intro _ hall
    obtain ⟨hcdne, hcdok⟩ := hall cd (by simp)
    cases rest with
    | nil =>
      refine ⟨cd.head hcdne, cd.getLast hcdne, ?_, ?_, ?_, ?_⟩
      · exact List.head?_eq_head hcdne
      · exact hcdok _ (List.head_mem hcdne)
      · exact List.getLast?_eq_getLast cd hcdne
      · exact hcdok _ (List.getLast_mem hcdne)
    | cons cd2 rest2 =>
      obtain ⟨h2, t2, hh2, hph2, ht2, hpt2⟩ := ih (by simp) (fun x hx => hall x (by simp [hx]))
      refine ⟨cd.head hcdne, t2, ?_, ?_, ?_, ?_⟩
      · show (cd ++ ' ' :: joinSp (cd2 :: rest2)).head? = some (cd.head hcdne)
        rw [List.head?_append, List.head?_eq_head hcdne]
        rfl
      · exact hcdok _ (List.head_mem hcdne)
      · show (cd ++ ' ' :: joinSp (cd2 :: rest2)).getLast? = some t2
        rw [List.getLast?_append]
        have : (' ' :: joinSp (cd2 :: rest2)).getLast? = some t2 := by
          rw [show (' ' :: joinSp (cd2 :: rest2)) = [' '] ++ joinSp (cd2 :: rest2) from rfl,
            List.getLast?_append, ht2]
          rfl
        rw [this]
        rfl
      · exact hpt2

theorem morse_cipher_eq_joinSp (m : List Char) (hne : m ≠ [])
    (hgood : ∀ c ∈ m, morseGood c = true) :
    morse_code_cipher m = joinSp (m.map codeOfL) := by
  have hup : m.map toUpperA = m := by
    have h1 : m.map toUpperA = m.map id :=
      List.map_congr_left (fun c hc => (morseGood_parts (hgood c hc)).2.1)
    rw [h1, List.map_id]
  unfold morse_code_cipher
  rw [hup, foldl_enc_eq m hne (fun c hc => (morseGood_parts (hgood c hc)).1)]
  have hcodes : ∀ cd ∈ m.map codeOfL, cd ≠ [] ∧ ∀ d ∈ cd, isRustWhitespace d = false := by
    intro cd hcd
    rw [List.mem_map] at hcd
    obtain ⟨c, hc, hrfl⟩ := hcd
    subst hrfl
    have hp := morseGood_parts (hgood c hc)
    exact ⟨hp.2.2.1, fun d hd => (hp.2.2.2.1 d hd).1⟩
  obtain ⟨h, t, hh, hph, ht, hpt⟩ := joinSp_head_last (m.map codeOfL) (by simp [hne]) hcodes
  exact rustTrim_append_space hh hph ht hpt

theorem splitOnSpace_no_space : ∀ (cd : List Char), (∀ d ∈ cd, d ≠ ' ') →
    splitOnSpace cd = [cd] := by
  intro cd
  induction cd with
  | nil => intro _; rfl
  | cons d rest ih =>
    intro hall
    have hd : d ≠ ' ' := hall d (by simp)
    simp only [splitOnSpace, if_neg hd]
    rw [ih (fun x hx => hall x (by simp [hx]))]

theorem splitOnSpace_code_append : ∀ (cd : List Char) (rest : List Char), (∀ d ∈ cd, d ≠ ' ') →
    splitOnSpace (cd ++ ' ' :: rest) = cd :: splitOnSpace rest := by
  intro cd
  induction cd with
  | nil =>
    intro rest _
    simp [splitOnSpace]
  | cons d cd2 ih =>
    intro rest hall
    have hd : d ≠ ' ' := hall d (by simp)
    simp only [List.cons_append, splitOnSpace, if_neg hd, List.append_eq]
    rw [ih rest (fun x hx => hall x (by simp [hx]))]

theorem splitOnSpace_joinSp : ∀ (codes : List (List Char)), codes ≠ [] →
    (∀ cd ∈ codes, ∀ d ∈ cd, d ≠ ' ') →
    splitOnSpace (joinSp codes) = codes := by
  intro codes
  induction codes with
  | nil => intro h; exact absurd rfl h
  | cons cd rest ih =>
    intro _ hall
    cases rest with
    | nil =>
      show splitOnSpace (joinSp [cd]) = [cd]
      exact splitOnSpace_no_space cd (hall cd (by simp))
    | cons cd2 rest2 =>
      show splitOnSpace (cd ++ ' ' :: joinSp (cd2 :: rest2)) = cd :: cd2 :: rest2
      rw [splitOnSpace_code_append cd _ (hall cd (by simp))]
      rw [ih (by simp) (fun x hx => hall x (by simp [hx]))]

theorem morseDecStep_append (acc : List Char) (tok : List Char) :
    morseDecStep acc tok = acc ++ morseDecStep [] tok := by
  unfold morseDecStep
  cases morseRevLookup (String.mk tok) <;> simp

theorem foldl_morseDecStep_append : ∀ (toks : List (List Char)) (acc : List Char),
    toks.foldl morseDecStep acc = acc ++ toks.foldl morseDecStep [] := by
  intro toks
  induction toks with
  | nil => intro acc; simp
  | cons tok rest ih =>
    intro acc
    simp only [List.foldl_cons]
    rw [ih (morseDecStep acc tok), ih (morseDecStep [] tok), morseDecStep_append acc tok]
    simp

theorem dec_codes (m : List Char) (hgood : ∀ c ∈ m, morseGood c = true) :
    (m.map codeOfL).foldl morseDecStep [] = m := by
  induction m with
  | nil => rfl
  | cons c rest ih =>
    simp only [List.map_cons, List.foldl_cons]
    rw [foldl_morseDecStep_append, ih (fun x hx => hgood x (by simp [hx]))]
    have hrev := (morseGood_parts (hgood c (by simp))).2.2.2.2
    rw [show morseDecStep [] (codeOfL c) = [c] from by simp [morseDecStep, hrev]]
    rfl

/-- Claim C1 counterexample: `X` lies in the Morse table's character set, yet it
does not round-trip: its code `-..-` is also `*`'s code, the reverse map keeps
the last insertion, and `"X"` decodes to `"*"`. -/
theorem morse_roundtrip_fails_on_X :
    'X' ∈ MORSE_CODE_MAP.map Prod.fst ∧
    morse_code_decipher (morse_code_cipher ['X']) = ['*'] ∧ ['*'] ≠ ['X'] := by decide

/-- Claim C1 (amended): for every message whose characters all lie in the Morse
table's character set and differ from `X` (whose code collides with `*`'s),
deciphering the ciphered message gives the message back; the space character
round-trips through the code `/`. -/
theorem morse_roundtrip (m : List Char)
    (hm : ∀ c ∈ m, c ∈ MORSE_CODE_MAP.map Prod.fst ∧ c ≠ 'X') :
    morse_code_decipher (morse_code_cipher m) = m ∧
    morseLookup ' ' = some "/" ∧ morseRevLookup "/" = some ' ' := by
  refine ⟨?_, by decide, by decide⟩
  by_cases hne : m = []
  · subst hne
    decide
  · have hgood : ∀ x ∈ m, morseGood x = true := fun x hx =>
      morseGood_of_mem x (hm x hx).1 (hm x hx).2
    rw [morse_cipher_eq_joinSp m hne hgood]
    unfold morse_code_decipher
    rw [splitOnSpace_joinSp (m.map codeOfL) (by simp [hne]) ?_]
    · exact dec_codes m hgood
    · intro cd hcd d hd
      rw [List.mem_map] at hcd
      obtain ⟨c, hc, hrfl⟩ := hcd
      subst hrfl
      exact ((morseGood_parts (hgood c hc)).2.2.2.1 d hd).2

/-- Claim C1 amended witness: the roundtrip applied at a concrete message built
from letters, digits, punctuation and a space, with the hypothesis discharged
by evaluation. -/
theorem morse_roundtrip_witness :
    morse_code_decipher (morse_code_cipher "SOS 123,?".toList) = "SOS 123,?".toList :=
  (morse_roundtrip "SOS 123,?".toList (by decide)).1

/-! ### C2, C3, C4: the gematria converter -/

/-- The 52 ASCII letters. -/
def asciiLetters : List Char :=
  "abcdefghijklmnopqrstuvwxyzABCDEFGHIJKLMNOPQRSTUVWXYZ".toList

theorem mem_asciiLetters_of_alpha {c : Char} (h : isAsciiAlphaB c = true) :
    c ∈ asciiLetters := by
  have hball : ∀ n, n < 123 → (97 ≤ n ∧ n ≤ 122) ∨ (65 ≤ n ∧ n ≤ 90) →
      Char.ofNat n ∈ asciiLetters := by decide
  have hranges : (97 ≤ c.toNat ∧ c.toNat ≤ 122) ∨ (65 ≤ c.toNat ∧ c.toNat ≤ 90) := by
    rcases Bool.or_eq_true_iff.mp (by simpa [isAsciiAlphaB] using h) with hx | hx
    · exact Or.inl (isLowerB_iff.mp hx)
    · exact Or.inr (isUpperB_iff.mp hx)
  have hlt : c.toNat < 123 := by omega
  have := hball c.toNat hlt hranges
  rwa [Char.ofNat_toNat] at this

theorem foldl_emit_append (emit : Char → List Char) : ∀ (l : List Char) (acc : List Char),
    l.foldl (fun acc c => acc ++ emit c) acc = acc ++ l.foldl (fun acc c => acc ++ emit c) [] := by
  intro l
  induction l with
  | nil => intro acc; simp
  | cons c rest ih =>
    intro acc
    simp only [List.foldl_cons]
    rw [ih (acc ++ emit c), ih ([] ++ emit c)]
    simp

theorem foldl_emit_joinSp (tok : Char → List Char) : ∀ (m : List Char), m ≠ [] →
    m.foldl (fun acc c => acc ++ (tok c ++ [' '])) [] = joinSp (m.map tok) ++ [' '] := by
  intro m
  induction m with
  | nil => intro h; exact absurd rfl h
  | cons c rest ih =>
    intro _
    cases rest with
    | nil => simp [joinSp]
    | cons c2 rest2 =>
      rw [List.foldl_cons, foldl_emit_append (fun c => tok c ++ [' ']) (c2 :: rest2),
        ih (by simp)]
      simp [joinSp]

/-- Per-letter facts about the gematria tokens, by evaluation over the 52
letters: the token is a non-empty string of decimal digits, it parses back to
the ordinal, the ordinal lies in `[1, 26]`, and emitting `'a' + n - 1` for it
yields the lowercased letter. -/
theorem a2nTok_spec : ∀ c ∈ asciiLetters,
    a2nTok c ≠ [] ∧ (∀ d ∈ a2nTok c, isDigit10 d = true ∧ isRustWhitespace d = false ∧ d ≠ ' ') ∧
    parseU32 (a2nTok c) = some (a2nOrd c) ∧ 1 ≤ a2nOrd c ∧ a2nOrd c ≤ 26 ∧
    Char.ofNat (97 + a2nOrd c - 1) = toLowerA c := by decide

theorem num2alphaLoop_digits : ∀ (ds : List Char) (rest acc buf : List Char),
    (∀ d ∈ ds, isDigit10 d = true) →
    num2alphaLoop (ds ++ rest) acc buf = num2alphaLoop rest acc (buf ++ ds) := by
  intro ds
  induction ds with
  | nil => intro rest acc buf _; simp
  | cons d ds2 ih =>
    intro rest acc buf hall
    have hd : isDigit10 d = true := hall d (by simp)
    rw [List.cons_append]
    rw [show num2alphaLoop (d :: (ds2 ++ rest)) acc buf =
        num2alphaLoop (ds2 ++ rest) acc (buf ++ [d]) from by simp [num2alphaLoop, hd]]
    rw [ih rest acc (buf ++ [d]) (fun x hx => hall x (by simp [hx]))]
    simp

theorem num2alphaLoop_nil_empty (acc : List Char) : num2alphaLoop [] acc [] = some acc := by
  simp [num2alphaLoop]

theorem num2alphaLoop_nil_le26 {buf : List Char} (hne : buf ≠ []) {n : Nat}
    (hparse : parseU32 buf = some n) (h26 : n ≤ 26) (acc : List Char) :
    num2alphaLoop [] acc buf = some (acc ++ [Char.ofNat (97 + n - 1)]) := by
  rw [num2alphaLoop, if_pos hne, hparse]
  show (if n ≤ 26 then some (acc ++ [Char.ofNat (97 + n - 1)])
    else if n ≤ 52 then some (acc ++ [Char.ofNat (65 + n - 27)]) else some acc) = _
  rw [if_pos h26]

theorem num2alphaLoop_nil_le52 {buf : List Char} (hne : buf ≠ []) {n : Nat}
    (hparse : parseU32 buf = some n) (h26 : ¬ n ≤ 26) (h52 : n ≤ 52) (acc : List Char) :
    num2alphaLoop [] acc buf = some (acc ++ [Char.ofNat (65 + n - 27)]) := by
  rw [num2alphaLoop, if_pos hne, hparse]
  show (if n ≤ 26 then some (acc ++ [Char.ofNat (97 + n - 1)])
    else if n ≤ 52 then some (acc ++ [Char.ofNat (65 + n - 27)]) else some acc) = _
  rw [if_neg h26, if_pos h52]

theorem num2alphaLoop_nil_big {buf : List Char} (hne : buf ≠ []) {n : Nat}
    (hparse : parseU32 buf = some n) (h26 : ¬ n ≤ 26) (h52 : ¬ n ≤ 52) (acc : List Char) :
    num2alphaLoop [] acc buf = some acc := by
  rw [num2alphaLoop, if_pos hne, hparse]
  show (if n ≤ 26 then some (acc ++ [Char.ofNat (97 + n - 1)])
    else if n ≤ 52 then some (acc ++ [Char.ofNat (65 + n - 27)]) else some acc) = _
  rw [if_neg h26, if_neg h52]

theorem num2alphaLoop_other {c : Char} (hdig : isDigit10 c = false)
    (hws : isRustWhitespace c = false) (rest acc buf : List Char) :
    num2alphaLoop (c :: rest) acc buf = num2alphaLoop rest acc buf := by
  rw [num2alphaLoop, if_neg (by simp [hdig]), if_neg (by simp [hws])]

theorem num2alphaLoop_ws_empty {c : Char} (hdig : isDigit10 c = false)
    (hws : isRustWhitespace c = true) (rest acc : List Char) :
    num2alphaLoop (c :: rest) acc [] = num2alphaLoop rest acc [] := by
  rw [num2alphaLoop, if_neg (by simp [hdig]), if_pos hws, if_neg (by simp)]

theorem num2alphaLoop_ws_le26 {c : Char} (hdig : isDigit10 c = false)
    (hws : isRustWhitespace c = true) {buf : List Char} (hne : buf ≠ []) {n : Nat}
    (hparse : parseU32 buf = some n) (h26 : n ≤ 26) (rest acc : List Char) :
    num2alphaLoop (c :: rest) acc buf =
      num2alphaLoop rest (acc ++ [Char.ofNat (97 + n - 1)]) [] := by
  rw [num2alphaLoop, if_neg (by simp [hdig]), if_pos hws, if_pos hne, hparse]
  show (if n ≤ 26 then num2alphaLoop rest (acc ++ [Char.ofNat (97 + n - 1)]) []
    else if n ≤ 52 then num2alphaLoop rest (acc ++ [Char.ofNat (65 + n - 27)]) []
    else num2alphaLoop rest acc buf) = _
  rw [if_pos h26]

theorem num2alphaLoop_ws_le52 {c : Char} (hdig : isDigit10 c = false)
    (hws : isRustWhitespace c = true) {buf : List Char} (hne : buf ≠ []) {n : Nat}
    (hparse : parseU32 buf = some n) (h26 : ¬ n ≤ 26) (h52 : n ≤ 52) (rest acc : List Char) :
    num2alphaLoop (c :: rest) acc buf =
      num2alphaLoop rest (acc ++ [Char.ofNat (65 + n - 27)]) [] := by
  rw [num2alphaLoop, if_neg (by simp [hdig]), if_pos hws, if_pos hne, hparse]
  show (if n ≤ 26 then num2alphaLoop rest (acc ++ [Char.ofNat (97 + n - 1)]) []
    else if n ≤ 52 then num2alphaLoop rest (acc ++ [Char.ofNat (65 + n - 27)]) []
    else num2alphaLoop rest acc buf) = _
  rw [if_neg h26, if_pos h52]

theorem num2alphaLoop_ws_big {c : Char} (hdig : isDigit10 c = false)
    (hws : isRustWhitespace c = true) {buf : List Char} (hne : buf ≠ []) {n : Nat}
    (hparse : parseU32 buf = some n) (h26 : ¬ n ≤ 26) (h52 : ¬ n ≤ 52) (rest acc : List Char) :
    num2alphaLoop (c :: rest) acc buf = num2alphaLoop rest acc buf := by
  rw [num2alphaLoop, if_neg (by simp [hdig]), if_pos hws, if_pos hne, hparse]
  show (if n ≤ 26 then num2alphaLoop rest (acc ++ [Char.ofNat (97 + n - 1)]) []
    else if n ≤ 52 then num2alphaLoop rest (acc ++ [Char.ofNat (65 + n - 27)]) []
    else num2alphaLoop rest acc buf) = _
  rw [if_neg h26, if_neg h52]

theorem digitsVal_foldl_bound : ∀ (l : List Char) (a : Nat),
    (∀ d ∈ l, isDigit10 d = true) →
    l.foldl (fun a c => a * 10 + (c.toNat - 48)) a < (a + 1) * 10 ^ l.length := by
  intro l
  induction l with
  | nil => intro a _; simp
  | cons c rest ih =>
    intro a hall
    have hd : c.toNat - 48 ≤ 9 := by
      have := hall c (by simp)
      rw [isDigit10, Bool.and_eq_true] at this
      obtain ⟨h1, h2⟩ := this
      simp at h1 h2
      omega
    have hih := ih (a * 10 + (c.toNat - 48)) (fun x hx => hall x (by simp [hx]))
    simp only [List.foldl_cons, List.length_cons]
    calc rest.foldl (fun a c => a * 10 + (c.toNat - 48)) (a * 10 + (c.toNat - 48))
        < (a * 10 + (c.toNat - 48) + 1) * 10 ^ rest.length := hih
      _ ≤ ((a + 1) * 10) * 10 ^ rest.length := by
          apply Nat.mul_le_mul_right
          omega
      _ = (a + 1) * 10 ^ (rest.length + 1) := by ring

theorem parseU32_of_short_digits {buf : List Char} (hne : buf ≠ [])
    (hd : ∀ d ∈ buf, isDigit10 d = true) (hlen : buf.length ≤ 9) :
    parseU32 buf = some (digitsVal buf) := by
  have hbound : digitsVal buf < 10 ^ buf.length := by
    have := digitsVal_foldl_bound buf 0 hd
    simpa [digitsVal] using this
  have hle : (10 : Nat) ^ buf.length ≤ 10 ^ 9 := Nat.pow_le_pow_right (by omega) hlen
  unfold parseU32
  rw [if_pos]
  refine ⟨hne, ?_, ?_⟩
  · rw [List.all_eq_true]
    exact hd
  · have : (10 : Nat) ^ 9 = 1000000000 := by norm_num
    omega

theorem num2alphaLoop_total : ∀ (l acc buf : List Char),
    (∀ d ∈ buf, isDigit10 d = true) →
    buf.length + l.countP isDigit10 ≤ 9 →
    ∃ out, num2alphaLoop l acc buf = some out := by
  intro l
  induction l with
  | nil =>
    intro acc buf hbuf hcnt
    by_cases hne : buf = []
    · subst hne
      exact ⟨acc, num2alphaLoop_nil_empty acc⟩
    · have hparse := parseU32_of_short_digits hne hbuf (by simpa using hcnt)
      by_cases h26 : digitsVal buf ≤ 26
      · exact ⟨_, num2alphaLoop_nil_le26 hne hparse h26 acc⟩
      · by_cases h52 : digitsVal buf ≤ 52
        · exact ⟨_, num2alphaLoop_nil_le52 hne hparse h26 h52 acc⟩
        · exact ⟨acc, num2alphaLoop_nil_big hne hparse h26 h52 acc⟩
  | cons c rest ih =>
    intro acc buf hbuf hcnt
    by_cases hdig : isDigit10 c = true
    · have hcnt2 : (buf ++ [c]).length + rest.countP isDigit10 ≤ 9 := by
        rw [List.countP_cons_of_pos _ _ hdig] at hcnt
        simp only [List.length_append, List.length_cons, List.length_nil]
        omega
      obtain ⟨out, hout⟩ := ih acc (buf ++ [c])
        (by intro x hx
            rcases List.mem_append.mp hx with h | h
            · exact hbuf x h
            · simp at h; subst h; exact hdig) hcnt2
      refine ⟨out, ?_⟩
      rw [show num2alphaLoop (c :: rest) acc buf = num2alphaLoop rest acc (buf ++ [c]) from by
        rw [num2alphaLoop, if_pos hdig]]
      exact hout
    · have hdigf : isDigit10 c = false := by simpa using hdig
      have hcnt2 : buf.length + rest.countP isDigit10 ≤ 9 := by
        rw [List.countP_cons_of_neg _ _ (by simp [hdigf])] at hcnt
        omega
      by_cases hws : isRustWhitespace c = true
      · by_cases hne : buf = []
        · subst hne
          obtain ⟨out, hout⟩ := ih acc [] (by simp) (by simpa using hcnt2)
          exact ⟨out, by rw [num2alphaLoop_ws_empty hdigf hws]; exact hout⟩
        · have hparse := parseU32_of_short_digits hne hbuf (by omega)
          by_cases h26 : digitsVal buf ≤ 26
          · obtain ⟨out, hout⟩ := ih (acc ++ [Char.ofNat (97 + digitsVal buf - 1)]) []
              (by simp) (by simp only [List.length_nil]; omega)
            exact ⟨out, by rw [num2alphaLoop_ws_le26 hdigf hws hne hparse h26]; exact hout⟩
          · by_cases h52 : digitsVal buf ≤ 52
            · obtain ⟨out, hout⟩ := ih (acc ++ [Char.ofNat (65 + digitsVal buf - 27)]) []
                (by simp) (by simp only [List.length_nil]; omega)
              exact ⟨out, by rw [num2alphaLoop_ws_le52 hdigf hws hne hparse h26 h52]; exact hout⟩
            · obtain ⟨out, hout⟩ := ih acc buf hbuf hcnt2
              exact ⟨out, by rw [num2alphaLoop_ws_big hdigf hws hne hparse h26 h52]; exact hout⟩
      · have hwsf : isRustWhitespace c = false := by simpa using hws
        obtain ⟨out, hout⟩ := ih acc buf hbuf hcnt2
        exact ⟨out, by rw [num2alphaLoop_other hdigf hwsf]; exact hout⟩

/-- Claim C3 counterexample: `num2alpha` is not total — on `"4294967296 "` the
buffered digit sequence exceeds `u32::MAX = 4294967295`, `parse().unwrap()`
panics (modelled by `none`), even though the buffer holds only decimal digits. -/
theorem num2alpha_panics_on_big_number : num2alpha "4294967296 ".toList = none := by decide

/-- Claim C3 (amended): `num2alpha` returns a value whenever every buffered
digit sequence fits in a `u32`; in particular it is total on every input
containing at most 9 decimal-digit characters.  It is not total in general:
a buffered run whose value exceeds `u32::MAX` makes `parse().unwrap()` panic
(see the counterexample). -/
theorem num2alpha_total_when_buffers_fit (l : List Char) (h : l.countP isDigit10 ≤ 9) :
    ∃ out, num2alpha l = some out :=
  num2alphaLoop_total l [] [] (by simp) (by simpa using h)

/-- Claim C3 amended witness: the amended totality applied at a concrete
input with 9 digit characters. -/
theorem num2alpha_total_witness : ∃ out, num2alpha "8 5 12 12 15 !".toList = some out :=
  num2alpha_total_when_buffers_fit "8 5 12 12 15 !".toList (by decide)

/-- Claim C4: evaluating `num2alpha` at the failing input `"53 1"`.  The
`continue` in the invalid-number branch skips `number_buffer.clear()`, so the
buffer keeps `"53"`, grows to `"531"`, and the final flush discards it: the
result is `""`, not `"a"` as the spec's cleared-buffer semantics would give. -/
theorem num2alpha_53_1_keeps_buffer :
    num2alpha "53 1".toList = some [] ∧ some ([] : List Char) ≠ some ['a'] := by decide

theorem num2alphaLoop_joinSp : ∀ (m : List Char) (acc : List Char),
    (∀ c ∈ m, c ∈ asciiLetters) →
    num2alphaLoop (joinSp (m.map a2nTok)) acc [] = some (acc ++ m.map toLowerA) := by
  intro m
  induction m with
  | nil =>
    intro acc _
    rw [show joinSp (([] : List Char).map a2nTok) = [] from rfl, num2alphaLoop_nil_empty]
    simp
  | cons c rest ih =>
    intro acc hmem
    obtain ⟨hne, hdig, hparse, h1, h26, hemit⟩ := a2nTok_spec c (hmem c (by simp))
    cases rest with
    | nil =>
      show num2alphaLoop (joinSp [a2nTok c]) acc [] = some (acc ++ [c].map toLowerA)
      rw [show joinSp [a2nTok c] = a2nTok c from rfl]
      rw [show (a2nTok c : List Char) = a2nTok c ++ [] from by simp,
        num2alphaLoop_digits (a2nTok c) [] acc [] (fun d hd => (hdig d hd).1)]
      simp only [List.nil_append]
      rw [num2alphaLoop_nil_le26 hne hparse h26 acc, hemit]
      simp
    | cons c2 rest2 =>
      show num2alphaLoop (joinSp (a2nTok c :: (c2 :: rest2).map a2nTok)) acc [] =
        some (acc ++ (c :: c2 :: rest2).map toLowerA)
      rw [show joinSp (a2nTok c :: (c2 :: rest2).map a2nTok) =
          a2nTok c ++ ' ' :: joinSp ((c2 :: rest2).map a2nTok) from by
        simp [joinSp]]
      rw [num2alphaLoop_digits (a2nTok c) _ acc [] (fun d hd => (hdig d hd).1)]
      simp only [List.nil_append]
      rw [num2alphaLoop_ws_le26 (by decide) (by decide) hne hparse h26 _ acc]
      rw [ih (acc ++ [Char.ofNat (97 + a2nOrd c - 1)]) (fun x hx => hmem x (by simp [hx]))]
      rw [hemit]
      simp

/-- Claim C2 counterexample: `"a 5"` contains only letters, spaces and digits,
but `num2alpha (alpha2num "a 5")` is `"ae"`: the space is consumed as a token
separator and the digit `5` is decoded as the letter `e`, while the
lowercase-normalized input is `"a 5"` itself. -/
theorem gematria_roundtrip_fails_on_space_digit :
    num2alpha (alpha2num "a 5".toList) = some "ae".toList ∧
    "ae".toList ≠ ("a 5".toList).map toLowerA := by decide

/-- Claim C2 (amended): for every input consisting only of ASCII letters (no
spaces and no digits), `num2alpha (alpha2num m)` equals the lowercase-normalized
form of `m`.  Spaces are consumed as separators and digits are decoded as
letters, so the claimed roundtrip fails as soon as the message contains either
(see the counterexample). -/
theorem gematria_roundtrip_letters (m : List Char)
    (hm : ∀ c ∈ m, isAsciiAlphaB c = true) :
    num2alpha (alpha2num m) = some (m.map toLowerA) := by
  by_cases hmne : m = []
  · subst hmne
    decide
  · have hmem : ∀ c ∈ m, c ∈ asciiLetters := fun c hc => mem_asciiLetters_of_alpha (hm c hc)
    have htrim : alpha2num m = joinSp (m.map a2nTok) := by
      unfold alpha2num
      rw [foldl_emit_joinSp a2nTok m hmne]
      have hcodes : ∀ cd ∈ m.map a2nTok, cd ≠ [] ∧ ∀ d ∈ cd, isRustWhitespace d = false := by
        intro cd hcd
        rw [List.mem_map] at hcd
        obtain ⟨c, hc, hrfl⟩ := hcd
        subst hrfl
        obtain ⟨hne, hdig, _, _, _, _⟩ := a2nTok_spec c (hmem c hc)
        exact ⟨hne, fun d hd => (hdig d hd).2.1⟩
      obtain ⟨h, t, hh, hph, ht, hpt⟩ := joinSp_head_last (m.map a2nTok) (by simp [hmne]) hcodes
      exact rustTrim_append_space hh hph ht hpt
    rw [htrim]
    unfold num2alpha
    have := num2alphaLoop_joinSp m [] hmem
    simpa using this

/-- Claim C2 amended witness: the amended roundtrip applied at a concrete
mixed-case letters-only message, hypothesis discharged by evaluation. -/
theorem gematria_roundtrip_letters_witness :
    num2alpha (alpha2num "HelloWorld".toList) = some ("helloworld".toList) := by
  have h := gematria_roundtrip_letters "HelloWorld".toList (by decide)
  rw [h]
  decide

/-! ### C5: rail-fence roundtrip -/

theorem railState_inv {r : Nat} (hr : 2 ≤ r) {dir rail : Int}
    (hdir : dir = 1 ∨ dir = -1) (h0 : 0 ≤ rail) (hlt : rail < (r : Int)) :
    (railDir r dir rail = 1 ∨ railDir r dir rail = -1) ∧
    0 ≤ rail + railDir r dir rail ∧ rail + railDir r dir rail < (r : Int) := by
  unfold railDir
  split_ifs with h1 h2
  · refine ⟨Or.inl rfl, by omega, by omega⟩
  · refine ⟨Or.inr rfl, by omega, by omega⟩
  · exact ⟨hdir, by rcases hdir with h | h <;> omega, by rcases hdir with h | h <;> omega⟩

theorem pushRow_length (fence : List (List Char)) (i : Nat) (c : Char) :
    (pushRow fence i c).length = fence.length := by
  simp [pushRow]

theorem pushRow_getElem {fence : List (List Char)} {i j : Nat} (hj : j < fence.length)
    (c : Char) (hj2 : j < (pushRow fence i c).length) :
    (pushRow fence i c)[j] = if i = j then fence[j] ++ [c] else fence[j] := by
  simp only [pushRow]
  rw [List.getElem_set]
  by_cases hij : i = j
  · subst hij
    rw [if_pos rfl, if_pos rfl, List.getD_eq_getElem _ _ hj]
  · rw [if_neg hij, if_neg hij]

theorem zipWith_append_replicate : ∀ (l : List (List Char)),
    List.zipWith (· ++ ·) l (List.replicate l.length ([] : List Char)) = l := by
  intro l
  induction l with
  | nil => rfl
  | cons x xs ih => simp [List.replicate_succ, ih]

theorem railEncLoop_length {r : Nat} : ∀ (m : List Char) (fence : List (List Char))
    (dir rail : Int) (g : List (List Char)),
    railEncLoop r m fence dir rail = some g → g.length = fence.length := by
  intro m
  induction m with
  | nil =>
    intro fence dir rail g h
    simp [railEncLoop] at h
    subst h
    rfl
  | cons c rest ih =>
    intro fence dir rail g h
    rw [railEncLoop] at h
    by_cases hc : 0 ≤ rail ∧ rail < (fence.length : Int)
    · rw [if_pos hc] at h
      have := ih _ _ _ _ h
      rwa [pushRow_length] at this
    · rw [if_neg hc] at h
      simp at h

theorem railEncLoop_exists {r : Nat} (hr : 2 ≤ r) : ∀ (m : List Char) (fence : List (List Char))
    (dir rail : Int), fence.length = r → (dir = 1 ∨ dir = -1) → 0 ≤ rail → rail < (r : Int) →
    ∃ g, railEncLoop r m fence dir rail = some g := by
  intro m
  induction m with
  | nil => intro fence dir rail _ _ _ _; exact ⟨fence, rfl⟩
  | cons c rest ih =>
    intro fence dir rail hlen hdir h0 hlt
    obtain ⟨hd2, h02, hlt2⟩ := railState_inv hr hdir h0 hlt
    obtain ⟨g, hg⟩ := ih (pushRow fence rail.toNat c) _ _
      (by rw [pushRow_length, hlen]) hd2 h02 hlt2
    refine ⟨g, ?_⟩
    rw [railEncLoop, if_pos ⟨h0, by rw [hlen]; exact hlt⟩]
    exact hg

theorem railEncLoop_zip {r : Nat} (hr : 2 ≤ r) : ∀ (m : List Char) (fence : List (List Char))
    (dir rail : Int), fence.length = r → (dir = 1 ∨ dir = -1) → 0 ≤ rail → rail < (r : Int) →
    railEncLoop r m fence dir rail =
      (railEncLoop r m (List.replicate r []) dir rail).map
        (fun g => List.zipWith (· ++ ·) fence g) := by
  intro m
  induction m with
  | nil =>
    intro fence dir rail hlen hdir h0 hlt
    simp only [railEncLoop, Option.map_some']
    rw [← hlen, zipWith_append_replicate]
  | cons c rest ih =>
    intro fence dir rail hlen hdir h0 hlt
    obtain ⟨hd2, h02, hlt2⟩ := railState_inv hr hdir h0 hlt
    have hcond : 0 ≤ rail ∧ rail < (fence.length : Int) := ⟨h0, by rw [hlen]; exact hlt⟩
    have hcond2 : 0 ≤ rail ∧ rail < ((List.replicate r ([] : List Char)).length : Int) :=
      ⟨h0, by rw [List.length_replicate]; exact hlt⟩
    have hrtn : rail.toNat < r := by omega
    rw [railEncLoop, if_pos hcond]
    conv_rhs => rw [railEncLoop, if_pos hcond2]
    rw [ih (pushRow fence rail.toNat c) _ _ (by rw [pushRow_length, hlen]) hd2 h02 hlt2]
    rw [ih (pushRow (List.replicate r []) rail.toNat c) _ _
      (by rw [pushRow_length, List.length_replicate]) hd2 h02 hlt2]
    cases hG : railEncLoop r rest (List.replicate r [])
        (railDir r dir rail) (rail + railDir r dir rail) with
    | none => rfl
    | some g =>
      have hgl : g.length = r := by
        have := railEncLoop_length rest _ _ _ g hG
        rwa [List.length_replicate] at this
      simp only [Option.map_some']
      congr 1
      apply List.ext_getElem
      · simp [pushRow_length, hlen, hgl]
      · intro j h1 h2
        have hjr : j < r := by
          rw [List.length_zipWith, pushRow_length, hlen, hgl] at h1
          omega
        rw [List.getElem_zipWith, List.getElem_zipWith, List.getElem_zipWith]
        rw [pushRow_getElem (by rw [hlen]; exact hjr) c,
          pushRow_getElem (by rw [List.length_replicate]; exact hjr) c]
        by_cases hji : rail.toNat = j
        · rw [if_pos hji, if_pos hji]
          simp
        · rw [if_neg hji, if_neg hji]
          simp

theorem pushRow_sum : ∀ (fence : List (List Char)) (i : Nat) (c : Char), i < fence.length →
    ((pushRow fence i c).map List.length).sum = (fence.map List.length).sum + 1 := by
  intro fence
  induction fence with
  | nil => intro i c h; simp at h
  | cons f0 rest ih =>
    intro i c h
    cases i with
    | zero =>
      simp [pushRow]
      omega
    | succ j =>
      have hps : pushRow (f0 :: rest) (j + 1) c = f0 :: pushRow rest j c := by
        simp [pushRow]
      rw [hps]
      simp only [List.map_cons, List.sum_cons]
      rw [ih j c (by simpa using h)]
      omega

theorem railEncLoop_sum {r : Nat} : ∀ (m : List Char) (fence : List (List Char))
    (dir rail : Int) (g : List (List Char)),
    railEncLoop r m fence dir rail = some g →
    (g.map List.length).sum = (fence.map List.length).sum + m.length := by
  intro m
  induction m with
  | nil =>
    intro fence dir rail g h
    simp [railEncLoop] at h
    subst h
    simp
  | cons c rest ih =>
    intro fence dir rail g h
    rw [railEncLoop] at h
    by_cases hc : 0 ≤ rail ∧ rail < (fence.length : Int)
    · rw [if_pos hc] at h
      have hs := ih _ _ _ _ h
      rw [pushRow_sum fence rail.toNat c (by omega)] at hs
      rw [hs, List.length_cons]
      omega
    · rw [if_neg hc] at h
      simp at h

theorem pushRow_map_length : ∀ (fence : List (List Char)) (i : Nat) (c : Char),
    i < fence.length →
    (pushRow fence i c).map List.length =
      (fence.map List.length).set i ((fence.map List.length).getD i 0 + 1) := by
  intro fence
  induction fence with
  | nil => intro i c h; simp at h
  | cons f0 rest ih =>
    intro i c h
    cases i with
    | zero => simp [pushRow]
    | succ j =>
      have hps : pushRow (f0 :: rest) (j + 1) c = f0 :: pushRow rest j c := by
        simp [pushRow]
      rw [hps]
      simp only [List.map_cons, List.set_cons_succ]
      rw [ih j c (by simpa using h)]
      rfl

theorem railCountLoop_eq {r : Nat} : ∀ (m : List Char) (fence : List (List Char)) (dir rail : Int),
    railCountLoop r m.length (fence.map List.length) dir rail =
      (railEncLoop r m fence dir rail).map (List.map List.length) := by
  intro m
  induction m with
  | nil => intro fence dir rail; simp [railCountLoop, railEncLoop]
  | cons c rest ih =>
    intro fence dir rail
    rw [show (c :: rest).length = rest.length + 1 from rfl]
    rw [railCountLoop, railEncLoop]
    by_cases hc : 0 ≤ rail ∧ rail < (fence.length : Int)
    · have hc2 : 0 ≤ rail ∧ rail < (((fence.map List.length).length : Nat) : Int) := by
        rwa [List.length_map]
      rw [if_pos hc2, if_pos hc]
      rw [← pushRow_map_length fence rail.toNat c (by omega)]
      exact ih (pushRow fence rail.toNat c) _ _
    · have hc2 : ¬ (0 ≤ rail ∧ rail < (((fence.map List.length).length : Nat) : Int)) := by
        rwa [List.length_map]
      rw [if_neg hc2, if_neg hc]
      rfl

theorem railFill_flatten : ∀ (F : List (List Char)),
    railFill (F.map List.length) F.flatten = some F := by
  intro F
  induction F with
  | nil => rfl
  | cons R F2 ih =>
    show railFill (R.length :: F2.map List.length) (R ++ F2.flatten) = some (R :: F2)
    rw [railFill, if_pos (by simp)]
    rw [List.take_left, List.drop_left, ih]
    rfl

theorem railReadLoop_sim {r : Nat} (hr : 2 ≤ r) : ∀ (m : List Char) (dir rail : Int)
    (fence : List (List Char)) (res : List Char) (fuel : Nat),
    (dir = 1 ∨ dir = -1) → 0 ≤ rail → rail < (r : Int) → m.length ≤ fuel →
    railEncLoop r m (List.replicate r []) dir rail = some fence →
    railReadLoop r (res.length + m.length) fuel fence dir rail res = some (res ++ m) := by
  intro m
  induction m with
  | nil =>
    intro dir rail fence res fuel _ _ _ _ henc
    simp only [railEncLoop, Option.some_inj] at henc
    subst henc
    cases fuel with
    | zero =>
      rw [railReadLoop, if_pos (by simp)]
      simp
    | succ fuel2 =>
      rw [railReadLoop, if_pos (by simp)]
      simp
  | cons c m2 ih =>
    intro dir rail fence res fuel hdir h0 hlt hfuel henc
    obtain ⟨hd2, h02, hlt2⟩ := railState_inv hr hdir h0 hlt
    rw [railEncLoop, if_pos ⟨h0, by rw [List.length_replicate]; exact hlt⟩] at henc
    rw [railEncLoop_zip hr m2 (pushRow (List.replicate r []) rail.toNat c) _ _
      (by rw [pushRow_length, List.length_replicate]) hd2 h02 hlt2] at henc
    cases hG : railEncLoop r m2 (List.replicate r [])
        (railDir r dir rail) (rail + railDir r dir rail) with
    | none =>
      rw [hG] at henc
      simp at henc
    | some g =>
      rw [hG] at henc
      simp only [Option.map_some', Option.some_inj] at henc
      have hgl : g.length = r := by
        have := railEncLoop_length m2 _ _ _ g hG
        rwa [List.length_replicate] at this
      have hrtn : rail.toNat < r := by omega
      cases fuel with
      | zero => exact absurd hfuel (by simp)
      | succ fuel2 =>
        subst henc
        have hziplen : (List.zipWith (· ++ ·) (pushRow (List.replicate r []) rail.toNat c) g).length = r := by
          rw [List.length_zipWith, pushRow_length, List.length_replicate, hgl]
          omega
        have hgel : rail.toNat < g.length := by omega
        have hzel : rail.toNat <
            (List.zipWith (· ++ ·) (pushRow (List.replicate r []) rail.toNat c) g).length := by
          omega
        have hrowElem : (List.zipWith (· ++ ·) (pushRow (List.replicate r []) rail.toNat c) g)[rail.toNat] =
            c :: g[rail.toNat] := by
          rw [List.getElem_zipWith]
          rw [pushRow_getElem (by rw [List.length_replicate]; exact hrtn) c]
          rw [if_pos rfl]
          simp
        have hrow : (List.zipWith (· ++ ·) (pushRow (List.replicate r []) rail.toNat c) g).getD rail.toNat [] =
            c :: g[rail.toNat] := by
          rw [List.getD_eq_getElem _ _ (by omega)]
          exact hrowElem
        have hset : (List.zipWith (· ++ ·) (pushRow (List.replicate r []) rail.toNat c) g).set rail.toNat
            (g[rail.toNat]) = g := by
          apply List.ext_getElem
          · rw [List.length_set, hziplen, hgl]
          · intro j h1 h2
            have hjr : j < r := by rw [List.length_set, hziplen] at h1; exact h1
            rw [List.getElem_set]
            by_cases hji : rail.toNat = j
            · rw [if_pos hji]
              subst hji
              rfl
            · rw [if_neg hji]
              rw [List.getElem_zipWith]
              rw [pushRow_getElem (by rw [List.length_replicate]; exact hjr) c]
              rw [if_neg hji]
              simp
        rw [railReadLoop]
        rw [if_neg (by rw [List.length_cons]; omega)]
        rw [if_pos ⟨h0, by rw [hziplen]; exact hlt⟩]
        rw [hrow]
        show railReadLoop r (res.length + (c :: m2).length) fuel2
          ((List.zipWith (· ++ ·) (pushRow (List.replicate r []) rail.toNat c) g).set rail.toNat
            (g[rail.toNat]))
          (railDir r dir rail) (rail + railDir r dir rail) (res ++ [c]) = some (res ++ c :: m2)
        rw [hset]
        have htot : res.length + (c :: m2).length = (res ++ [c]).length + m2.length := by
          simp
          omega
        rw [htot]
        rw [ih (railDir r dir rail) (rail + railDir r dir rail) g (res ++ [c]) fuel2
          hd2 h02 hlt2 (by rw [List.length_cons] at hfuel; omega) hG]
        simp

/-- Claim C5: for every message and every rail count `r` with
`2 ≤ r < length m`, `rail_fence_decipher (rail_fence_cipher m r) r` returns the
original message (both functions succeed, and the composition is the
identity). -/
theorem rail_fence_roundtrip (m : List Char) (r : Nat) (h2 : 2 ≤ r) (hlen : r < m.length) :
    (rail_fence_cipher m r).bind (fun c => rail_fence_decipher c r) = some m := by
  obtain ⟨F, hF⟩ := railEncLoop_exists h2 m (List.replicate r []) 1 0
    (List.length_replicate r []) (Or.inl rfl) (by omega) (by omega)
  have hguard : ¬ (r = 1 ∨ r ≥ m.length) := by omega
  have hcipher : rail_fence_cipher m r = some F.flatten := by
    rw [rail_fence_cipher, if_neg hguard, hF]
    rfl
  have hsum : (F.map List.length).sum = m.length := by
    have := railEncLoop_sum m _ _ _ F hF
    simpa using this
  have hflat : F.flatten.length = m.length := by
    rw [List.length_flatten, hsum]
  have hguard2 : ¬ (r = 1 ∨ r ≥ F.flatten.length) := by
    rw [hflat]
    omega
  have hcount : railCountLoop r F.flatten.length (List.replicate r 0) 1 0 =
      some (F.map List.length) := by
    have hrep : (List.replicate r ([] : List Char)).map List.length = List.replicate r 0 := by
      simp [List.map_replicate]
    have := @railCountLoop_eq r m (List.replicate r []) 1 0
    rw [hrep, hF] at this
    rw [hflat, this]
    rfl
  have hfill : railFill (F.map List.length) F.flatten = some F := railFill_flatten F
  have hread : railReadLoop r F.flatten.length (2 * r * F.flatten.length + 1) F 1 0 [] =
      some m := by
    have hfuel : m.length ≤ 2 * r * F.flatten.length + 1 := by
      rw [hflat]
      have : 1 * m.length ≤ (2 * r) * m.length := Nat.mul_le_mul_right m.length (by omega)
      omega
    have := railReadLoop_sim h2 m 1 0 F [] (2 * r * F.flatten.length + 1)
      (Or.inl rfl) (by omega) (by omega) hfuel hF
    simpa [hflat] using this
  rw [hcipher, Option.some_bind, rail_fence_decipher, if_neg hguard2, hcount,
    Option.some_bind, hfill, Option.some_bind, hread]

/-- Claim C5 witness: the roundtrip applied at the spec's concrete vector
message with 3 rails, hypotheses discharged by evaluation. -/
theorem rail_fence_roundtrip_witness :
    (rail_fence_cipher "WEAREDISCOVEREDSAVEYOURSELF".toList 3).bind
      (fun c => rail_fence_decipher c 3) = some "WEAREDISCOVEREDSAVEYOURSELF".toList :=
  rail_fence_roundtrip "WEAREDISCOVEREDSAVEYOURSELF".toList 3 (by decide) (by decide)

/-! ### Concrete vectors from the repository's tests and doc examples -/

/-- The doc-example and test vectors of the library, checked against the
embedding by evaluation. -/
theorem embedding_matches_test_vectors :
    rot13 "Hello, World!".toList = "Uryyb, Jbeyq!".toList ∧
    caesar_cipher "Hello, World!".toList 3 = "Khoor, Zruog!".toList ∧
    vigenere_cipher "ATTACKATDAWN".toList "LEMON".toList = "LXFOPVEFRNHR".toList ∧
    atbash_cipher "ATTACKATDAWN".toList = "ZGGZXPZGWZDM".toList ∧
    morse_code_cipher "HELLO".toList = ".... . .-.. .-.. ---".toList ∧
    morse_code_decipher ".... . .-.. .-.. ---".toList = "HELLO".toList ∧
    alpha2num "Hello, World!".toList = "8 5 12 12 15 ,   23 15 18 12 4 !".toList ∧
    num2alpha "8 5 12 12 15 , 23 15 18 12 4 !".toList = some "helloworld".toList ∧
    reverse_cipher "Hello, World!".toList = "!dlroW ,olleH".toList ∧
    rail_fence_cipher "WEAREDISCOVEREDSAVEYOURSELF".toList 3 =
      some "WECRAOEERDSOEESVYUSLAIVDERF".toList ∧
    rail_fence_decipher "WECRAOEERDSOEESVYUSLAIVDERF".toList 3 =
      some "WEAREDISCOVEREDSAVEYOURSELF".toList := by
  decide
